import Mathlib

/-!
Verification development for the duckOS virtual-memory core.

The RangeMap (`VMSpace::alloc_space`, `VMSpace::alloc_space_at`,
`VMSpace::free_space` in the kernel source) is a sorted, contiguous,
doubly-linked list of `VMSpaceRegion { start, size, used, prev, next }`
nodes.  We embed that list as a Lean `List` of `RNode` values (the
`prev`/`next` pointer surgery of the C code corresponds exactly to list
surgery on the sorted node sequence, including the `m_region_map` head
updates).  The byte counter `m_used` is a `size_t`; duckOS targets
32-bit x86 (the bundled ELF loader only accepts `ELF32` images), so we
model `size_t` arithmetic as natural numbers reduced modulo `2^32`
exactly where the C code adds to or subtracts from the counter.

A kernel `ASSERT` failure aborts the machine, so an execution that
fails an assertion produces no successor state; functions whose C
counterpart can fail an assertion mid-way return `Option` and yield
`none` for the aborting runs.  The `ASSERT(size % PAGE_SIZE == 0)`
style entry assertions are modelled as page-alignment side conditions
on the step relation instead (a misaligned call aborts, hence produces
no reachable state).
-/

namespace DuckVM

/-- Modulus of 32-bit `size_t` arithmetic (duckOS is a 32-bit x86 kernel). -/
def W32 : Nat := 4294967296

/-- 32-bit unsigned addition, as performed on the `m_used` counter. -/
def add32 (a b : Nat) : Nat := (a + b) % W32

/-- 32-bit unsigned subtraction (wrapping), as performed by `m_used -= size`. -/
def sub32 (a b : Nat) : Nat := (a + (W32 - b % W32)) % W32

/-- Page size used by the alignment assertions (`PAGE_SIZE` in the source). -/
def PAGE : Nat := 4096

/-- One `VMSpaceRegion` node of the range map: `{ start, size, used }`.
The `prev`/`next` pointers are represented by the position of the node in
the surrounding `List`. -/
structure RNode where
  start : Nat
  size : Nat
  used : Bool
deriving DecidableEq, Repr

/-- A whole RangeMap: the sorted node list (head = `m_region_map`) plus the
`m_used` byte counter of the owning `VMSpace`. -/
structure RMState where
  nodes : List RNode
  mUsed : Nat
deriving DecidableEq, Repr

/-- The check `VMSpaceRegion::contains(address)`: `start <= a < start + size`. -/
def RNode.contains (n : RNode) (a : Nat) : Prop :=
  n.start ≤ a ∧ a < n.start + n.size

instance (n : RNode) (a : Nat) : Decidable (n.contains a) := by
  unfold RNode.contains; infer_instance

/-- The initial range map of `VMSpace::VMSpace(start, size, ..)`: one free
node covering the whole space, `m_used = 0`. -/
def initRM (base cap : Nat) : RMState := ⟨[⟨base, cap, false⟩], 0⟩

/-- Scan of `VMSpace::alloc_space` over the node list.  Used nodes and free
nodes that are too small are skipped; an exactly-fitting free node is marked
used; a larger free node is split into a used node of the requested size
followed by the shrunken free remainder.  Returns the chosen address and the
new node list, or `none` for the `ENOMEM` return (which mutates nothing). -/
def allocGo (size : Nat) : List RNode → Option (Nat × List RNode)
  | [] => none
  | n :: rest =>
    if n.used = true then (allocGo size rest).map fun p => (p.1, n :: p.2)
    else if n.size = size then some (n.start, ⟨n.start, n.size, true⟩ :: rest)
    else if size ≤ n.size then
      some (n.start, ⟨n.start, size, true⟩ :: ⟨n.start + size, n.size - size, false⟩ :: rest)
    else (allocGo size rest).map fun p => (p.1, n :: p.2)

/-- Embedding of `VMSpace::alloc_space(size)` (post the `ASSERT(size % PAGE_SIZE == 0)`
precondition): the scan plus the `m_used += size` counter update. -/
def allocSpace (size : Nat) (st : RMState) : Option (Nat × RMState) :=
  (allocGo size st.nodes).map fun p => (p.1, ⟨p.2, add32 st.mUsed size⟩)

/-- Scan of `VMSpace::alloc_space_at(size, address)` over the node list.
It looks for the node containing `address`; a used node yields `ENOMEM`;
a free node whose size equals `size` is marked used wholesale (note: the
source does not compare `start` with `address` in this branch); otherwise,
if the space from `address` to the end of the node suffices, the node is
split into an optional free head piece, the used middle, and an optional
free tail piece. -/
def allocAtGo (size addr : Nat) : List RNode → Option (Nat × List RNode)
  | [] => none
  | n :: rest =>
    if n.contains addr then
      if n.used = true then none
      else if n.size = size then some (n.start, ⟨n.start, n.size, true⟩ :: rest)
      else if size ≤ n.size - (addr - n.start) then
        some (addr,
          (if n.start < addr then [⟨n.start, addr - n.start, false⟩] else []) ++
          ⟨addr, size, true⟩ ::
          ((if addr + size < n.start + n.size then
              [⟨addr + size, n.start + n.size - (addr + size), false⟩] else []) ++ rest))
      else none
    else (allocAtGo size addr rest).map fun p => (p.1, n :: p.2)

/-- Embedding of `VMSpace::alloc_space_at(size, address)` (post the alignment
asserts): the scan plus the `m_used += size` counter update. -/
def allocSpaceAt (size addr : Nat) (st : RMState) : Option (Nat × RMState) :=
  (allocAtGo size addr st.nodes).map fun p => (p.1, ⟨p.2, add32 st.mUsed size⟩)

/-- The merge-with-next step of `VMSpace::free_space`: `c` is the node that
was just marked free; if its successor is also free the two are fused. -/
def mergeNext (c : RNode) : List RNode → List RNode
  | [] => [c]
  | s :: rest => if s.used = true then c :: s :: rest
                 else ⟨c.start, c.size + s.size, false⟩ :: rest

/-- The scan of `VMSpace::free_space` past the head node: `prev` is the node
immediately before the scan point.  On finding the node whose `start` equals
the freed address, the source asserts the size matches (mismatch aborts:
`none`), marks it free, merges it into `prev` when `prev` is free (the merged
node gets `start -= prev.size`, `size += prev.size`), and then merges the
successor when free. -/
def freeScan (size addr : Nat) (prev : RNode) : List RNode → Option (List RNode)
  | [] => none
  | c :: suf =>
    if c.start = addr then
      if c.size = size then
        if prev.used = true then some (prev :: mergeNext ⟨c.start, c.size, false⟩ suf)
        else some (mergeNext ⟨c.start - prev.size, prev.size + c.size, false⟩ suf)
      else none
    else (freeScan size addr c suf).map fun l => prev :: l

/-- Node-list part of `VMSpace::free_space(size, address)`: find the first
node starting at `address` (falling off the end hits `ASSERT(false)`, and a
size mismatch hits `ASSERT(cur_region->size == size)`: both are `none`). -/
def freeGo (size addr : Nat) : List RNode → Option (List RNode)
  | [] => none
  | c :: suf =>
    if c.start = addr then
      if c.size = size then some (mergeNext ⟨c.start, c.size, false⟩ suf) else none
    else freeScan size addr c suf

/-- Embedding of `VMSpace::free_space(size, address)` (post the alignment asserts): the
scan-and-merge plus the `m_used -= size` counter update.  Note the source
never checks the found node's `used` flag. -/
def freeSpace (size addr : Nat) (st : RMState) : Option RMState :=
  (freeGo size addr st.nodes).map fun l => ⟨l, sub32 st.mUsed size⟩

/-- Total number of bytes covered by a node list. -/
def totalSum : List RNode → Nat
  | [] => 0
  | n :: rest => n.size + totalSum rest

/-- Number of bytes covered by the nodes marked used. -/
def usedSum : List RNode → Nat
  | [] => 0
  | n :: rest => (if n.used = true then n.size else 0) + usedSum rest

/-- Contiguity: the node list starts at `a` and each node begins exactly
where its predecessor ends (gap-free and overlap-free coverage). -/
def chain : Nat → List RNode → Prop
  | _, [] => True
  | a, n :: rest => n.start = a ∧ chain (n.start + n.size) rest

instance : ∀ (a : Nat) (l : List RNode), Decidable (chain a l)
  | _, [] => .isTrue trivial
  | a, _ :: rest =>
    have := fun b => instDecidableChain b rest
    by unfold chain; infer_instance

/-- No two adjacent nodes are both free (free nodes are coalesced eagerly). -/
def noTwoFree : List RNode → Prop
  | [] => True
  | [_] => True
  | a :: b :: rest => (a.used = true ∨ b.used = true) ∧ noTwoFree (b :: rest)

instance : ∀ l : List RNode, Decidable (noTwoFree l)
  | [] => .isTrue trivial
  | [_] => .isTrue trivial
  | _ :: b :: rest =>
    have := instDecidableNoTwoFree (b :: rest)
    by unfold noTwoFree; infer_instance

/-- Last element of a node list (recursive twin of `List.getLast?`). -/
def lastOpt : List RNode → Option RNode
  | [] => none
  | [x] => some x
  | _ :: y :: rest => lastOpt (y :: rest)

/-- Whether the first node of the list whose `start` equals `addr` (the node
`free_space(.., addr)` would operate on) is marked used.  Vacuously true
when no node starts at `addr`. -/
def firstMatchUsed (addr : Nat) : List RNode → Bool
  | [] => true
  | c :: suf => if c.start = addr then c.used else firstMatchUsed addr suf

/-- A free address that fits a request of `size` bytes: some free node
contains the whole of `[b, b + size)`.  (Free nodes are maximal free runs in
any state satisfying `noTwoFree`, so this captures exactly the addresses at
which `size` free bytes are available.) -/
def fitsFree (l : List RNode) (b size : Nat) : Prop :=
  ∃ n, n ∈ l ∧ n.used = false ∧ n.start ≤ b ∧ b + size ≤ n.start + n.size

/-- States of a RangeMap reachable from the freshly constructed single-free-
node map by non-aborting `alloc_space`, `alloc_space_at` and `free_space`
calls.  Page alignment of the arguments is required because the source
asserts it on entry (a misaligned call aborts instead of stepping). -/
inductive Reach (base cap : Nat) : RMState → Prop where
  | init : Reach base cap (initRM base cap)
  | alloc {st st' : RMState} {size a : Nat} : Reach base cap st →
      size % PAGE = 0 → allocSpace size st = some (a, st') → Reach base cap st'
  | allocAt {st st' : RMState} {size addr a : Nat} : Reach base cap st →
      size % PAGE = 0 → addr % PAGE = 0 →
      allocSpaceAt size addr st = some (a, st') → Reach base cap st'
  | free {st st' : RMState} {size addr : Nat} : Reach base cap st →
      size % PAGE = 0 → addr % PAGE = 0 →
      freeSpace size addr st = some st' → Reach base cap st'

/-- Reachability by valid sequences: like `Reach`, but every `free_space`
call must target a node currently marked used (the source never checks this
flag, and an invalid free silently corrupts the `m_used` counter). -/
inductive ReachV (base cap : Nat) : RMState → Prop where
  | init : ReachV base cap (initRM base cap)
  | alloc {st st' : RMState} {size a : Nat} : ReachV base cap st →
      size % PAGE = 0 → allocSpace size st = some (a, st') → ReachV base cap st'
  | allocAt {st st' : RMState} {size addr a : Nat} : ReachV base cap st →
      size % PAGE = 0 → addr % PAGE = 0 →
      allocSpaceAt size addr st = some (a, st') → ReachV base cap st'
  | free {st st' : RMState} {size addr : Nat} : ReachV base cap st →
      size % PAGE = 0 → addr % PAGE = 0 → firstMatchUsed addr st.nodes = true →
      freeSpace size addr st = some st' → ReachV base cap st'

/-- The node list produced by a successful `free_space` call, expressed on
the decomposition `pre ++ c :: suf` at the first node starting at the freed
address: mark `c` free, fuse with the last node of `pre` when that node is
free, then fuse with the head of `suf` when free. -/
def freeShape (pre : List RNode) (c : RNode) (suf : List RNode) : List RNode :=
  match pre with
  | [] => mergeNext ⟨c.start, c.size, false⟩ suf
  | [p] =>
    if p.used = true then p :: mergeNext ⟨c.start, c.size, false⟩ suf
    else mergeNext ⟨c.start - p.size, p.size + c.size, false⟩ suf
  | x :: y :: rest => x :: freeShape (y :: rest) c suf

/-- Structural part of the RangeMap invariant: contiguous coverage of
`[base, base + cap)`, eager coalescing, and a counter below `2^32`. -/
def SInv (base cap : Nat) (st : RMState) : Prop :=
  chain base st.nodes ∧ totalSum st.nodes = cap ∧ noTwoFree st.nodes ∧ st.mUsed < W32

/-- The protection quadruple `VMProt`. -/
structure VMProt where
  read : Bool
  write : Bool
  execute : Bool
  cow : Bool
deriving DecidableEq, Repr

/-- A virtual memory object as the syscall layer sees it: its page-aligned
byte size and, for shared anonymous objects, the `shm_id` under which the
global registry lists it (`none` for private objects).  Pointer equality of
`kstd::Arc<VMObject>` handles is modelled by equality of these descriptors;
this is faithful because the registry holds at most one object per id. -/
structure VMObj where
  shmId : Option Int
  size : Nat
deriving DecidableEq, Repr

/-- A `VMRegion`: a placement of an object at `[start, start + size)` with a
protection. -/
structure VMRegion where
  obj : VMObj
  start : Nat
  size : Nat
  prot : VMProt
deriving DecidableEq, Repr

/-- Embedding of `VMSpace::map_object(object, prot)`: allocate `object->size()` bytes
anywhere, build the region with exactly the object's size, then call
`m_page_directory.map(*region)`.  Modelled from the spec: the page-table map
step is an external capability that may fail, supplied here as the `pageMap`
oracle; the source calls it as a bare statement and discards its outcome. -/
def map_object (pageMap : VMRegion → Bool) (obj : VMObj) (prot : VMProt)
    (st : RMState) : Option (VMRegion × RMState) :=
  match allocSpace obj.size st with
  | none => none
  | some (va, st2) =>
    let region : VMRegion := ⟨obj, va, obj.size, prot⟩
    let _ := pageMap region
    some (region, st2)

/-- Embedding of `VMSpace::map_object(object, address, prot)`: as `map_object`, but the
range comes from `alloc_space_at(object->size(), address)`. -/
def map_object_at (pageMap : VMRegion → Bool) (obj : VMObj) (addr : Nat)
    (prot : VMProt) (st : RMState) : Option (VMRegion × RMState) :=
  match allocSpaceAt obj.size addr st with
  | none => none
  | some (va, st2) =>
    let region : VMRegion := ⟨obj, va, obj.size, prot⟩
    let _ := pageMap region
    some (region, st2)

/-- Kernel result code `SUCCESS` (0). -/
def SUCCESS : Int := 0

/-- POSIX `ENOENT` (2): a positive constant, as in the duckOS errno tables. -/
def ENOENT : Int := 2

/-- POSIX `ENOMEM` (12). -/
def ENOMEM : Int := 12

/-- POSIX `EINVAL` (22). -/
def EINVAL : Int := 22

/-- Permission bit `SHM_READ` (1). -/
def SHM_READ : Nat := 1

/-- Permission bit `SHM_WRITE` (2). -/
def SHM_WRITE : Nat := 2

/-- Permission bit `SHM_SHARE` (4). -/
def SHM_SHARE : Nat := 4

/-- The per-process state the memory syscalls operate on: the global shared
anonymous object registry (`AnonymousVMObject::get_shared`, modelled from
the spec as an id-indexed lookup), the per-object sharing tables
(`get_shared_permissions` / `share`, modelled from the spec keyed by the
object's id and the grantee pid), the process's `_vm_regions` list, the
`m_used_shmem` / `m_used_pmem` counters, and the `VMSpace` range map. -/
structure KState where
  registry : Int → Option VMObj
  tables : Int → Int → Option VMProt
  regions : List VMRegion
  usedShmem : Nat
  usedPmem : Nat
  vspace : RMState

/-- Find and remove the first region with `start == addr && size == len`
(the loop of `Process::sys_munmap`). -/
def removeExact (addr len : Nat) : List VMRegion → Option (VMRegion × List VMRegion)
  | [] => none
  | r :: rest =>
    if r.start = addr ∧ r.size = len then some (r, rest)
    else (removeExact addr len rest).map fun p => (p.1, r :: p.2)

/-- Find and remove the first region whose backing object is `obj`
(the loop of `Process::sys_shmdetach`; `region->object() == object` pointer
equality is modelled as descriptor equality). -/
def removeByObj (obj : VMObj) : List VMRegion → Option (VMRegion × List VMRegion)
  | [] => none
  | r :: rest =>
    if r.obj = obj then some (r, rest)
    else (removeByObj obj rest).map fun p => (p.1, r :: p.2)

/-- Embedding of `Process::sys_munmap(addr, length)`: exact-match removal; on a hit,
`m_used_pmem -= region->size()`; on a miss, `return ENOENT;` (the positive
constant, verbatim from the source). -/
def sys_munmap (addr len : Nat) (st : KState) : Int × KState :=
  match removeExact addr len st.regions with
  | none => (ENOENT, st)
  | some (r, rest) =>
    (SUCCESS, {st with regions := rest, usedPmem := sub32 st.usedPmem r.size})

/-- Embedding of `Process::sys_shmdetach(id)`: look the object up in the registry
(failure propagates the lookup's `ENOENT` code, modelled from the spec for
`get_shared`), then remove the first region backed by it, decrementing
`m_used_shmem` by `object->size()`; if no region matches, `return ENOENT;`
(positive, verbatim from the source). -/
def sys_shmdetach (id : Int) (st : KState) : Int × KState :=
  match st.registry id with
  | none => (ENOENT, st)
  | some obj =>
    match removeByObj obj st.regions with
    | none => (ENOENT, st)
    | some (_, rest) =>
      (SUCCESS, {st with regions := rest, usedShmem := sub32 st.usedShmem obj.size})

/-- Embedding of `Process::sys_shmattach(id, addr, s)`: registry lookup, permission
lookup for the calling pid, read check (each failure exits with `ENOENT`
through `Result::code()`), then map the object (at `addr` when non-null)
with the granted permissions, append the region to `_vm_regions` and add its
size to `m_used_shmem`.  The registry and permission lookups are modelled
from the spec (`get_shared`, `get_shared_permissions`); everything else
follows the source. -/
def sys_shmattach (pid : Int) (id : Int) (addr : Option Nat)
    (pageMap : VMRegion → Bool) (st : KState) : Int × KState :=
  match st.registry id with
  | none => (ENOENT, st)
  | some obj =>
    match st.tables id pid with
    | none => (ENOENT, st)
    | some perms =>
      if perms.read = false then (ENOENT, st)
      else
        match (match addr with
               | some a => map_object_at pageMap obj a perms st.vspace
               | none => map_object pageMap obj perms st.vspace) with
        | none => (ENOMEM, st)
        | some (region, vst) =>
          (SUCCESS, {st with regions := st.regions ++ [region],
                             usedShmem := add32 st.usedShmem region.size,
                             vspace := vst})

/-- Embedding of `Process::sys_shmallow(id, pid, perms)`: reject `SHM_SHARE`, reject
neither-read-nor-write, reject write-without-read, reject a pid that is not
a live process (`TaskManager::process_for_pid`, modelled from the spec as
the `live` oracle) — all four with the literal `-EINVAL` of the source; then
look the object up (a miss propagates the lookup's `ENOENT` code) and record
`(pid -> {read, write, execute=false, cow=false})` in its sharing table,
overwriting any prior entry (the spec's description of `share`). -/
def sys_shmallow (live : Int → Bool) (id : Int) (pid : Int) (perms : Nat)
    (st : KState) : Int × KState :=
  if perms &&& SHM_SHARE ≠ 0 then (-EINVAL, st)
  else if perms &&& (SHM_READ ||| SHM_WRITE) = 0 then (-EINVAL, st)
  else if perms &&& SHM_WRITE ≠ 0 ∧ perms &&& SHM_READ = 0 then (-EINVAL, st)
  else if live pid = false then (-EINVAL, st)
  else
    match st.registry id with
    | none => (ENOENT, st)
    | some _ =>
      let newTables : Int → Int → Option VMProt := fun i q =>
        if i = id ∧ q = pid then
          some ⟨perms &&& SHM_READ != 0, perms &&& SHM_WRITE != 0, false, false⟩
        else st.tables i q
      (SUCCESS, {st with tables := newTables})

/-- Every region's size equals its backing object's size.  `map_object`
creates only such regions, so the property holds of every `_vm_regions`
list populated through it. -/
def SizesInv (regions : List VMRegion) : Prop := ∀ r ∈ regions, r.size = r.obj.size

@[simp] lemma totalSum_nil : totalSum [] = 0 := rfl

@[simp] lemma totalSum_cons (n : RNode) (l : List RNode) :
    totalSum (n :: l) = n.size + totalSum l := rfl

@[simp] lemma usedSum_nil : usedSum [] = 0 := rfl

@[simp] lemma usedSum_cons (n : RNode) (l : List RNode) :
    usedSum (n :: l) = (if n.used = true then n.size else 0) + usedSum l := rfl

@[simp] lemma chain_nil (a : Nat) : chain a [] ↔ True := Iff.rfl

@[simp] lemma chain_cons (a : Nat) (n : RNode) (l : List RNode) :
    chain a (n :: l) ↔ n.start = a ∧ chain (n.start + n.size) l := Iff.rfl

@[simp] lemma noTwoFree_nil : noTwoFree [] ↔ True := Iff.rfl

@[simp] lemma noTwoFree_single (x : RNode) : noTwoFree [x] ↔ True := Iff.rfl

@[simp] lemma noTwoFree_cons2 (x y : RNode) (t : List RNode) :
    noTwoFree (x :: y :: t) ↔ (x.used = true ∨ y.used = true) ∧ noTwoFree (y :: t) :=
  Iff.rfl

@[simp] lemma lastOpt_nil : lastOpt [] = none := rfl

@[simp] lemma lastOpt_single (x : RNode) : lastOpt [x] = some x := rfl

@[simp] lemma lastOpt_cons_cons (x y : RNode) (t : List RNode) :
    lastOpt (x :: y :: t) = lastOpt (y :: t) := rfl

lemma totalSum_append (xs ys : List RNode) :
    totalSum (xs ++ ys) = totalSum xs + totalSum ys := by
  induction xs with
  | nil => simp
  | cons x t ih => simp [ih]; omega

lemma usedSum_append (xs ys : List RNode) :
    usedSum (xs ++ ys) = usedSum xs + usedSum ys := by
  induction xs with
  | nil => simp
  | cons x t ih => simp [ih]; omega

lemma usedSum_le_totalSum (l : List RNode) : usedSum l ≤ totalSum l := by
  induction l with
  | nil => simp
  | cons x t ih =>
    by_cases h : x.used = true <;> simp [h] <;> omega

lemma chain_append (a : Nat) (xs ys : List RNode) :
    chain a (xs ++ ys) ↔ chain a xs ∧ chain (a + totalSum xs) ys := by
  induction xs generalizing a with
  | nil => simp
  | cons x t ih =>
    rw [List.cons_append, chain_cons, chain_cons, ih]
    constructor
    · rintro ⟨hx, h1, h2⟩
      subst hx
      rw [Nat.add_assoc] at h2
      exact ⟨⟨rfl, h1⟩, by rw [totalSum_cons]; exact h2⟩
    · rintro ⟨⟨hx, h1⟩, h2⟩
      subst hx
      rw [totalSum_cons, ← Nat.add_assoc] at h2
      exact ⟨rfl, h1, h2⟩

lemma chain_bounds (a : Nat) (l : List RNode) (h : chain a l) :
    ∀ m ∈ l, a ≤ m.start ∧ m.start + m.size ≤ a + totalSum l := by
  induction l generalizing a with
  | nil => simp
  | cons x t ih =>
    rw [chain_cons] at h
    obtain ⟨hx, hc⟩ := h
    intro m hm
    rcases List.mem_cons.mp hm with rfl | hm
    · rw [totalSum_cons]
      omega
    · have h2 := ih (x.start + x.size) hc m hm
      rw [totalSum_cons]
      omega

lemma chain_pairwise (a : Nat) (l : List RNode) (h : chain a l) :
    l.Pairwise fun m n => m.start + m.size ≤ n.start := by
  induction l generalizing a with
  | nil => exact List.Pairwise.nil
  | cons x t ih =>
    rw [chain_cons] at h
    obtain ⟨hx, hc⟩ := h
    refine List.Pairwise.cons ?_ (ih (x.start + x.size) hc)
    intro m hm
    exact le_trans (Nat.le_refl _) (chain_bounds (x.start + x.size) t hc m hm).1

lemma noTwoFree_tail (x : RNode) (t : List RNode) (h : noTwoFree (x :: t)) :
    noTwoFree t := by
  cases t with
  | nil => trivial
  | cons y r => exact h.2

lemma noTwoFree_append (xs ys : List RNode) :
    noTwoFree (xs ++ ys) ↔ noTwoFree xs ∧ noTwoFree ys ∧
      ∀ p q, lastOpt xs = some p → ys.head? = some q →
        p.used = true ∨ q.used = true := by
  induction xs with
  | nil => simp
  | cons x t ih =>
    cases t with
    | nil =>
      cases ys with
      | nil => simp
      | cons y ys2 =>
        simp only [List.cons_append, List.nil_append, noTwoFree_cons2,
          noTwoFree_single, lastOpt_single, List.head?_cons, Option.some.injEq,
          true_and]
        constructor
        · rintro ⟨hxy, hys⟩
          refine ⟨hys, ?_⟩
          intro p q hp hq
          subst hp; subst hq
          exact hxy
        · rintro ⟨hys, hb⟩
          exact ⟨hb x y rfl rfl, hys⟩
    | cons z t2 =>
      simp only [List.cons_append] at *
      rw [noTwoFree_cons2, noTwoFree_cons2, lastOpt_cons_cons, ih]
      tauto

lemma replace_chain (a : Nat) (pre suf seg : List RNode) (f : RNode)
    (h : chain a (pre ++ f :: suf)) (hseg : chain f.start seg)
    (htot : totalSum seg = f.size) : chain a (pre ++ (seg ++ suf)) := by
  rw [chain_append, chain_cons] at h
  obtain ⟨hpre, hfs, hsuf⟩ := h
  rw [chain_append, chain_append, ← hfs]
  refine ⟨hpre, hseg, ?_⟩
  rw [htot]
  exact hsuf

lemma replace_total (pre suf seg : List RNode) (f : RNode)
    (htot : totalSum seg = f.size) :
    totalSum (pre ++ (seg ++ suf)) = totalSum (pre ++ f :: suf) := by
  simp [totalSum_append, htot]

lemma replace_used (pre suf seg : List RNode) :
    usedSum (pre ++ (seg ++ suf)) = usedSum pre + usedSum seg + usedSum suf := by
  simp [usedSum_append]
  omega

lemma replace_ntf (pre suf seg : List RNode) (f : RNode) (hf : f.used = false)
    (hn : noTwoFree (pre ++ f :: suf)) (hseg : noTwoFree seg) :
    noTwoFree (pre ++ (seg ++ suf)) := by
  rw [noTwoFree_append] at hn
  obtain ⟨hnp, hnfs, hb⟩ := hn
  have hsufh : ∀ q, suf.head? = some q → q.used = true := by
    intro q hq
    cases suf with
    | nil => cases hq
    | cons s r =>
      cases hq
      rcases hnfs.1 with h | h
      · rw [hf] at h; cases h
      · exact h
  rw [noTwoFree_append]
  refine ⟨hnp, ?_, ?_⟩
  · rw [noTwoFree_append]
    exact ⟨hseg, noTwoFree_tail f suf hnfs, fun p q hp hq => Or.inr (hsufh q hq)⟩
  · intro p q hp hq
    rcases hb p f hp rfl with h | h
    · exact Or.inl h
    · rw [hf] at h; cases h

lemma bool_not_true {b : Bool} (h : ¬ b = true) : b = false := by
  cases b
  · rfl
  · exact absurd rfl h

lemma noTwoFree_cons_of {x : RNode} {l : List RNode} (hl : noTwoFree l)
    (hp : ∀ q, l.head? = some q → x.used = true ∨ q.used = true) :
    noTwoFree (x :: l) := by
  cases l with
  | nil => trivial
  | cons y r => exact ⟨hp y rfl, hl⟩

lemma allocGo_none_iff (size : Nat) (l : List RNode) :
    allocGo size l = none ↔ ∀ n ∈ l, n.used = true ∨ n.size < size := by
  induction l with
  | nil => simp [allocGo]
  | cons n t ih =>
    simp only [allocGo]
    by_cases hu : n.used = true
    · rw [if_pos hu]
      constructor
      · intro h m hm
        have ht : allocGo size t = none := by
          cases h2 : allocGo size t with
          | none => rfl
          | some p => rw [h2] at h; cases h
        rcases List.mem_cons.mp hm with rfl | hm
        · exact Or.inl hu
        · exact ih.mp ht m hm
      · intro h
        have ht : allocGo size t = none :=
          ih.mpr fun m hm => h m (List.mem_cons_of_mem n hm)
        rw [ht]; rfl
    · rw [if_neg hu]
      by_cases he : n.size = size
      · rw [if_pos he]
        constructor
        · intro h; cases h
        · intro h
          rcases h n (List.mem_cons_self n t) with h1 | h1
          · exact absurd h1 hu
          · omega
      · rw [if_neg he]
        by_cases hle : size ≤ n.size
        · rw [if_pos hle]
          constructor
          · intro h; cases h
          · intro h
            rcases h n (List.mem_cons_self n t) with h1 | h1
            · exact absurd h1 hu
            · omega
        · rw [if_neg hle]
          constructor
          · intro h m hm
            have ht : allocGo size t = none := by
              cases h2 : allocGo size t with
              | none => rfl
              | some p => rw [h2] at h; cases h
            rcases List.mem_cons.mp hm with rfl | hm
            · exact Or.inr (by omega)
            · exact ih.mp ht m hm
          · intro h
            have ht : allocGo size t = none :=
              ih.mpr fun m hm => h m (List.mem_cons_of_mem n hm)
            rw [ht]; rfl

lemma allocGo_some (size : Nat) (l : List RNode) (a : Nat) (l2 : List RNode)
    (h : allocGo size l = some (a, l2)) :
    ∃ pre f suf, l = pre ++ f :: suf ∧
      (∀ m ∈ pre, m.used = true ∨ m.size < size) ∧
      f.used = false ∧ size ≤ f.size ∧ a = f.start ∧
      l2 = pre ++ ((if f.size = size then [⟨f.start, f.size, true⟩]
        else [⟨f.start, size, true⟩, ⟨f.start + size, f.size - size, false⟩]) ++ suf) := by
  induction l generalizing a l2 with
  | nil => cases h
  | cons n t ih =>
    simp only [allocGo] at h
    by_cases hu : n.used = true
    · rw [if_pos hu] at h
      cases h2 : allocGo size t with
      | none => rw [h2] at h; cases h
      | some p =>
        rw [h2] at h
        simp only [Option.map_some', Option.some.injEq, Prod.mk.injEq] at h
        obtain ⟨ha, hl2⟩ := h
        obtain ⟨pre, f, suf, hl, hpre, hf, hsz, ha2, hl22⟩ :=
          ih p.1 p.2 (by rw [h2])
        refine ⟨n :: pre, f, suf, by rw [hl]; rfl, ?_, hf, hsz, by omega, ?_⟩
        · intro m hm
          rcases List.mem_cons.mp hm with rfl | hm
          · exact Or.inl hu
          · exact hpre m hm
        · rw [← hl2, hl22]
          rfl
    · rw [if_neg hu] at h
      by_cases he : n.size = size
      · rw [if_pos he] at h
        simp only [Option.some.injEq, Prod.mk.injEq] at h
        obtain ⟨ha, hl2⟩ := h
        refine ⟨[], n, t, rfl, by simp, bool_not_true hu, by omega, ha.symm, ?_⟩
        rw [← hl2, if_pos he]
        rfl
      · rw [if_neg he] at h
        by_cases hle : size ≤ n.size
        · rw [if_pos hle] at h
          simp only [Option.some.injEq, Prod.mk.injEq] at h
          obtain ⟨ha, hl2⟩ := h
          refine ⟨[], n, t, rfl, by simp, bool_not_true hu, hle, ha.symm, ?_⟩
          rw [← hl2, if_neg he]
          rfl
        · rw [if_neg hle] at h
          cases h2 : allocGo size t with
          | none => rw [h2] at h; cases h
          | some p =>
            rw [h2] at h
            simp only [Option.map_some', Option.some.injEq, Prod.mk.injEq] at h
            obtain ⟨ha, hl2⟩ := h
            obtain ⟨pre, f, suf, hl, hpre, hf, hsz, ha2, hl22⟩ :=
              ih p.1 p.2 (by rw [h2])
            refine ⟨n :: pre, f, suf, by rw [hl]; rfl, ?_, hf, hsz, by omega, ?_⟩
            · intro m hm
              rcases List.mem_cons.mp hm with rfl | hm
              · exact Or.inr (by omega)
              · exact hpre m hm
            · rw [← hl2, hl22]
              rfl

lemma allocSpace_some (size : Nat) (st : RMState) (a : Nat) (st2 : RMState)
    (h : allocSpace size st = some (a, st2)) :
    allocGo size st.nodes = some (a, st2.nodes) ∧ st2.mUsed = add32 st.mUsed size := by
  unfold allocSpace at h
  cases h2 : allocGo size st.nodes with
  | none => rw [h2] at h; cases h
  | some p =>
    rw [h2] at h
    simp only [Option.map_some', Option.some.injEq, Prod.mk.injEq] at h
    obtain ⟨ha, hst⟩ := h
    subst ha
    rw [← hst]
    exact ⟨rfl, rfl⟩

lemma allocSpaceAt_some (size addr : Nat) (st : RMState) (a : Nat) (st2 : RMState)
    (h : allocSpaceAt size addr st = some (a, st2)) :
    allocAtGo size addr st.nodes = some (a, st2.nodes) ∧
      st2.mUsed = add32 st.mUsed size := by
  unfold allocSpaceAt at h
  cases h2 : allocAtGo size addr st.nodes with
  | none => rw [h2] at h; cases h
  | some p =>
    rw [h2] at h
    simp only [Option.map_some', Option.some.injEq, Prod.mk.injEq] at h
    obtain ⟨ha, hst⟩ := h
    subst ha
    rw [← hst]
    exact ⟨rfl, rfl⟩

lemma freeSpace_some (size addr : Nat) (st : RMState) (st2 : RMState)
    (h : freeSpace size addr st = some st2) :
    freeGo size addr st.nodes = some st2.nodes ∧ st2.mUsed = sub32 st.mUsed size := by
  unfold freeSpace at h
  cases h2 : freeGo size addr st.nodes with
  | none => rw [h2] at h; cases h
  | some l =>
    rw [h2] at h
    simp only [Option.map_some', Option.some.injEq] at h
    rw [← h]
    exact ⟨rfl, rfl⟩

lemma allocGo_inv (size base : Nat) (l l2 : List RNode) (a : Nat)
    (h : allocGo size l = some (a, l2)) (hc : chain base l) (hn : noTwoFree l) :
    chain base l2 ∧ totalSum l2 = totalSum l ∧ noTwoFree l2 ∧
      usedSum l2 = usedSum l + size := by
  obtain ⟨pre, f, suf, rfl, hpre, hf, hsz, rfl, rfl⟩ := allocGo_some size l a l2 h
  by_cases he : f.size = size
  · rw [if_pos he]
    refine ⟨replace_chain base pre suf _ f hc ⟨rfl, trivial⟩ (by simp),
      replace_total pre suf _ f (by simp),
      replace_ntf pre suf _ f hf hn trivial, ?_⟩
    rw [replace_used]
    simp [usedSum_append, hf]
    omega
  · rw [if_neg he]
    refine ⟨replace_chain base pre suf _ f hc ⟨rfl, rfl, trivial⟩ (by simp <;> omega),
      replace_total pre suf _ f (by simp <;> omega),
      replace_ntf pre suf _ f hf hn (by simp), ?_⟩
    rw [replace_used]
    simp [usedSum_append, hf]
    omega

lemma allocAtGo_some (size addr : Nat) (l : List RNode) (a : Nat) (l2 : List RNode)
    (h : allocAtGo size addr l = some (a, l2)) :
    ∃ pre n suf, l = pre ++ n :: suf ∧ (∀ m ∈ pre, ¬ m.contains addr) ∧
      n.contains addr ∧ n.used = false ∧
      ((n.size = size ∧ a = n.start ∧
        l2 = pre ++ ([⟨n.start, n.size, true⟩] ++ suf)) ∨
       (¬ n.size = size ∧ size ≤ n.size - (addr - n.start) ∧ a = addr ∧
        l2 = pre ++
          (((if n.start < addr then [⟨n.start, addr - n.start, false⟩] else []) ++
            ⟨addr, size, true⟩ ::
            (if addr + size < n.start + n.size then
              [⟨addr + size, n.start + n.size - (addr + size), false⟩] else [])) ++
            suf))) := by
  induction l generalizing a l2 with
  | nil => cases h
  | cons n t ih =>
    simp only [allocAtGo] at h
    by_cases hcont : n.contains addr
    · rw [if_pos hcont] at h
      by_cases hu : n.used = true
      · rw [if_pos hu] at h; cases h
      · rw [if_neg hu] at h
        by_cases he : n.size = size
        · rw [if_pos he] at h
          simp only [Option.some.injEq, Prod.mk.injEq] at h
          obtain ⟨ha, hl2⟩ := h
          exact ⟨[], n, t, rfl, by simp, hcont, bool_not_true hu,
            Or.inl ⟨he, ha.symm, by rw [← hl2]; rfl⟩⟩
        · rw [if_neg he] at h
          by_cases hle : size ≤ n.size - (addr - n.start)
          · rw [if_pos hle] at h
            simp only [Option.some.injEq, Prod.mk.injEq] at h
            obtain ⟨ha, hl2⟩ := h
            refine ⟨[], n, t, rfl, by simp, hcont, bool_not_true hu,
              Or.inr ⟨he, hle, ha.symm, ?_⟩⟩
            rw [← hl2]
            simp
          · rw [if_neg hle] at h; cases h
    · rw [if_neg hcont] at h
      cases h2 : allocAtGo size addr t with
      | none => rw [h2] at h; cases h
      | some p =>
        rw [h2] at h
        simp only [Option.map_some', Option.some.injEq, Prod.mk.injEq] at h
        obtain ⟨ha, hl2⟩ := h
        obtain ⟨pre, n2, suf, hl, hpre, hcont2, hu2, hbr⟩ := ih p.1 p.2 (by rw [h2])
        refine ⟨n :: pre, n2, suf, by rw [hl]; rfl, ?_, hcont2, hu2, ?_⟩
        · intro m hm
          rcases List.mem_cons.mp hm with rfl | hm
          · exact hcont
          · exact hpre m hm
        · rcases hbr with ⟨he, ha2, hl22⟩ | ⟨he, hle, ha2, hl22⟩
          · exact Or.inl ⟨he, by omega, by rw [← hl2, hl22]; rfl⟩
          · exact Or.inr ⟨he, hle, by omega, by rw [← hl2, hl22]; rfl⟩

lemma allocAtGo_inv (size addr base : Nat) (l l2 : List RNode) (a : Nat)
    (h : allocAtGo size addr l = some (a, l2)) (hc : chain base l) (hn : noTwoFree l) :
    chain base l2 ∧ totalSum l2 = totalSum l ∧ noTwoFree l2 ∧
      usedSum l2 = usedSum l + size := by
  obtain ⟨pre, n, suf, rfl, hpre, hcont, hu, hbr⟩ := allocAtGo_some size addr l a l2 h
  obtain ⟨hb1, hb2⟩ := hcont
  rcases hbr with ⟨he, ha, rfl⟩ | ⟨he, hle, ha, rfl⟩
  · refine ⟨replace_chain base pre suf _ n hc ⟨rfl, trivial⟩ (by simp),
      replace_total pre suf _ n (by simp),
      replace_ntf pre suf _ n hu hn trivial, ?_⟩
    rw [replace_used]
    simp [usedSum_append, hu]
    omega
  · by_cases h1 : n.start < addr
    · by_cases h2 : addr + size < n.start + n.size
      · rw [if_pos h1, if_pos h2]
        refine ⟨replace_chain base pre suf _ n hc (by simp [chain_cons] <;> omega)
          (by simp <;> omega),
          replace_total pre suf _ n (by simp <;> omega),
          replace_ntf pre suf _ n hu hn (by simp), ?_⟩
        rw [replace_used]
        simp [usedSum_append, hu]
        omega
      · rw [if_pos h1, if_neg h2]
        refine ⟨replace_chain base pre suf _ n hc (by simp [chain_cons] <;> omega)
          (by simp <;> omega),
          replace_total pre suf _ n (by simp <;> omega),
          replace_ntf pre suf _ n hu hn (by simp), ?_⟩
        rw [replace_used]
        simp [usedSum_append, hu]
        omega
    · by_cases h2 : addr + size < n.start + n.size
      · rw [if_neg h1, if_pos h2]
        refine ⟨replace_chain base pre suf _ n hc (by simp [chain_cons] <;> omega)
          (by simp <;> omega),
          replace_total pre suf _ n (by simp <;> omega),
          replace_ntf pre suf _ n hu hn (by simp), ?_⟩
        rw [replace_used]
        simp [usedSum_append, hu]
        omega
      · exact absurd (by omega : n.size = size) he

lemma mergeNext_chain (a : Nat) (c : RNode) (suf : List RNode) (hc : c.start = a)
    (h : chain (c.start + c.size) suf) : chain a (mergeNext c suf) := by
  cases suf with
  | nil => exact ⟨hc, trivial⟩
  | cons s r =>
    by_cases hu : s.used = true
    · simp only [mergeNext, if_pos hu]
      exact ⟨hc, h⟩
    · simp only [mergeNext, if_neg hu]
      obtain ⟨hs, hr⟩ := h
      refine ⟨hc, ?_⟩
      show chain (c.start + (c.size + s.size)) r
      rw [show c.start + (c.size + s.size) = s.start + s.size by omega]
      exact hr

lemma mergeNext_total (c : RNode) (suf : List RNode) :
    totalSum (mergeNext c suf) = c.size + totalSum suf := by
  cases suf with
  | nil => simp [mergeNext]
  | cons s r =>
    by_cases hu : s.used = true <;> simp [mergeNext, hu] <;> omega

lemma mergeNext_used (c : RNode) (suf : List RNode) (hc : c.used = false) :
    usedSum (mergeNext c suf) = usedSum suf := by
  cases suf with
  | nil => simp [mergeNext, hc]
  | cons s r =>
    by_cases hu : s.used = true
    · simp [mergeNext, hu, hc]
    · simp [mergeNext, hu, hc]

lemma mergeNext_ntf (c : RNode) (suf : List RNode) (hc : c.used = false)
    (h : noTwoFree suf) : noTwoFree (mergeNext c suf) := by
  cases suf with
  | nil => trivial
  | cons s r =>
    by_cases hu : s.used = true
    · simp only [mergeNext, if_pos hu]
      exact ⟨Or.inr hu, h⟩
    · simp only [mergeNext, if_neg hu]
      cases r with
      | nil => trivial
      | cons w r2 =>
        rcases h.1 with h1 | h1
        · exact absurd h1 hu
        · exact ⟨Or.inr h1, h.2⟩

lemma mergeNext_head (c : RNode) (suf : List RNode) (hc : c.used = false) :
    ∃ q, (mergeNext c suf).head? = some q ∧ q.used = false := by
  cases suf with
  | nil => exact ⟨c, rfl, hc⟩
  | cons s r =>
    by_cases hu : s.used = true
    · simp only [mergeNext, if_pos hu]
      exact ⟨c, rfl, hc⟩
    · simp only [mergeNext, if_neg hu]
      exact ⟨_, rfl, rfl⟩

lemma freeShape_chain (a : Nat) : ∀ (pre : List RNode) (c : RNode) (suf : List RNode),
    chain a (pre ++ c :: suf) → chain a (freeShape pre c suf)
  | [], c, suf, h => by
    obtain ⟨hc, hr⟩ := h
    exact mergeNext_chain a _ suf hc hr
  | [p], c, suf, h => by
    obtain ⟨hp, hcs, hr⟩ := h
    by_cases hu : p.used = true
    · simp only [freeShape, if_pos hu]
      refine ⟨hp, ?_⟩
      exact mergeNext_chain (p.start + p.size) _ suf hcs hr
    · simp only [freeShape, if_neg hu]
      apply mergeNext_chain a _ suf
      · show c.start - p.size = a
        omega
      · show chain (c.start - p.size + (p.size + c.size)) suf
        rw [show c.start - p.size + (p.size + c.size) = c.start + c.size by omega]
        exact hr
  | x :: y :: rest, c, suf, h => by
    obtain ⟨hx, hr⟩ := h
    exact ⟨hx, freeShape_chain (x.start + x.size) (y :: rest) c suf hr⟩

lemma freeShape_total : ∀ (pre : List RNode) (c : RNode) (suf : List RNode),
    totalSum (freeShape pre c suf) = totalSum (pre ++ c :: suf)
  | [], c, suf => by
    simp only [freeShape, List.nil_append, totalSum_cons]
    rw [mergeNext_total]
  | [p], c, suf => by
    by_cases hu : p.used = true
    · simp only [freeShape, if_pos hu, List.cons_append, List.nil_append,
        totalSum_cons]
      rw [mergeNext_total]
    · simp only [freeShape, if_neg hu, List.cons_append, List.nil_append,
        totalSum_cons]
      rw [mergeNext_total]
      show p.size + c.size + totalSum suf = _
      omega
  | x :: y :: rest, c, suf => by
    simp only [freeShape, List.cons_append, totalSum_cons]
    rw [freeShape_total (y :: rest) c suf]
    rfl

lemma freeShape_used : ∀ (pre : List RNode) (c : RNode) (suf : List RNode),
    c.used = true →
    usedSum (freeShape pre c suf) + c.size = usedSum (pre ++ c :: suf)
  | [], c, suf, hcu => by
    show usedSum (mergeNext ⟨c.start, c.size, false⟩ suf) + c.size =
      usedSum (c :: suf)
    rw [mergeNext_used ⟨c.start, c.size, false⟩ suf rfl, usedSum_cons, if_pos hcu]
    omega
  | [p], c, suf, hcu => by
    by_cases hu : p.used = true
    · show usedSum (freeShape [p] c suf) + c.size = usedSum (p :: c :: suf)
      rw [show freeShape [p] c suf = p :: mergeNext ⟨c.start, c.size, false⟩ suf
          from by simp [freeShape, hu]]
      rw [usedSum_cons, mergeNext_used ⟨c.start, c.size, false⟩ suf rfl,
        usedSum_cons, usedSum_cons, if_pos hcu]
      omega
    · show usedSum (freeShape [p] c suf) + c.size = usedSum (p :: c :: suf)
      rw [show freeShape [p] c suf =
            mergeNext ⟨c.start - p.size, p.size + c.size, false⟩ suf
          from by simp [freeShape, hu]]
      rw [mergeNext_used ⟨c.start - p.size, p.size + c.size, false⟩ suf rfl,
        usedSum_cons, usedSum_cons, if_pos hcu, if_neg hu]
      omega
  | x :: y :: rest, c, suf, hcu => by
    simp only [freeShape, List.cons_append, usedSum_cons]
    have hrec := freeShape_used (y :: rest) c suf hcu
    simp only [List.cons_append, usedSum_cons] at hrec
    omega

lemma freeShape_head (x : RNode) (pre : List RNode) (c : RNode) (suf : List RNode) :
    ∃ q, (freeShape (x :: pre) c suf).head? = some q ∧ (q = x ∨ x.used = false) := by
  cases pre with
  | nil =>
    by_cases hu : x.used = true
    · simp only [freeShape, if_pos hu]
      exact ⟨x, rfl, Or.inl rfl⟩
    · simp only [freeShape, if_neg hu]
      obtain ⟨q, hq, _⟩ :=
        mergeNext_head ⟨c.start - x.size, x.size + c.size, false⟩ suf rfl
      exact ⟨q, hq, Or.inr (bool_not_true hu)⟩
  | cons y rest =>
    simp only [freeShape]
    exact ⟨x, rfl, Or.inl rfl⟩

lemma freeShape_ntf : ∀ (pre : List RNode) (c : RNode) (suf : List RNode),
    noTwoFree (pre ++ c :: suf) → noTwoFree (freeShape pre c suf)
  | [], c, suf, h => mergeNext_ntf _ suf rfl (noTwoFree_tail c suf h)
  | [p], c, suf, h => by
    have hsuf : noTwoFree suf := noTwoFree_tail c suf (noTwoFree_tail p _ h)
    by_cases hu : p.used = true
    · simp only [freeShape, if_pos hu]
      exact noTwoFree_cons_of (mergeNext_ntf _ suf rfl hsuf) (fun q hq => Or.inl hu)
    · simp only [freeShape, if_neg hu]
      exact mergeNext_ntf _ suf rfl hsuf
  | x :: y :: rest, c, suf, h => by
    simp only [freeShape]
    have ih := freeShape_ntf (y :: rest) c suf (noTwoFree_tail x _ h)
    apply noTwoFree_cons_of ih
    intro q hq
    obtain ⟨q2, hq2, hcase⟩ := freeShape_head y rest c suf
    rw [hq2] at hq
    injection hq with hq
    subst hq
    rcases hcase with rfl | hyf
    · exact h.1
    · rcases h.1 with hx | hy
      · exact Or.inl hx
      · rw [hyf] at hy; cases hy

lemma freeScan_of_first (size addr : Nat) (c : RNode) (suf : List RNode)
    (hc : c.start = addr) (hs : c.size = size) :
    ∀ (pre : List RNode) (prev : RNode), (∀ m ∈ pre, m.start ≠ addr) →
    freeScan size addr prev (pre ++ c :: suf) = some (freeShape (prev :: pre) c suf)
  | [], prev, hpre => by
    simp only [List.nil_append, freeScan, if_pos hc, if_pos hs]
    by_cases hu : prev.used = true
    · rw [if_pos hu]
      simp only [freeShape, if_pos hu]
    · rw [if_neg hu]
      simp only [freeShape, if_neg hu]
  | q :: rest, prev, hpre => by
    have hq : q.start ≠ addr := hpre q (List.mem_cons_self q rest)
    have hrec := freeScan_of_first size addr c suf hc hs rest q
      (fun m hm => hpre m (List.mem_cons_of_mem q hm))
    show freeScan size addr prev (q :: (rest ++ c :: suf)) =
      some (freeShape (prev :: q :: rest) c suf)
    simp only [freeScan, if_neg hq]
    rw [hrec]
    rfl

lemma freeGo_of_first (size addr : Nat) (pre : List RNode) (c : RNode)
    (suf : List RNode) (hpre : ∀ m ∈ pre, m.start ≠ addr) (hc : c.start = addr)
    (hs : c.size = size) :
    freeGo size addr (pre ++ c :: suf) = some (freeShape pre c suf) := by
  cases pre with
  | nil =>
    simp only [List.nil_append, freeGo, if_pos hc, if_pos hs]
    rfl
  | cons p rest =>
    have hp : p.start ≠ addr := hpre p (List.mem_cons_self p rest)
    simp only [List.cons_append, freeGo, if_neg hp]
    exact freeScan_of_first size addr c suf hc hs rest p
      (fun m hm => hpre m (List.mem_cons_of_mem p hm))

lemma freeScan_some (size addr : Nat) : ∀ (l : List RNode) (prev : RNode)
    (l2 : List RNode), freeScan size addr prev l = some l2 →
    ∃ pre c suf, l = pre ++ c :: suf ∧ (∀ m ∈ pre, m.start ≠ addr) ∧
      c.start = addr ∧ c.size = size ∧ l2 = freeShape (prev :: pre) c suf
  | [], prev, l2, h => by cases h
  | c :: suf, prev, l2, h => by
    by_cases hc : c.start = addr
    · simp only [freeScan, if_pos hc] at h
      by_cases hs : c.size = size
      · rw [if_pos hs] at h
        by_cases hu : prev.used = true
        · rw [if_pos hu] at h
          injection h with h
          exact ⟨[], c, suf, rfl, by simp, hc, hs,
            by rw [← h]; simp only [freeShape, if_pos hu]⟩
        · rw [if_neg hu] at h
          injection h with h
          exact ⟨[], c, suf, rfl, by simp, hc, hs,
            by rw [← h]; simp only [freeShape, if_neg hu]⟩
      · rw [if_neg hs] at h; cases h
    · simp only [freeScan, if_neg hc] at h
      cases h2 : freeScan size addr c suf with
      | none => rw [h2] at h; cases h
      | some l3 =>
        rw [h2] at h
        simp only [Option.map_some', Option.some.injEq] at h
        obtain ⟨pre, c2, suf2, hl, hpre, hc2, hs2, hl3⟩ :=
          freeScan_some size addr suf c l3 h2
        refine ⟨c :: pre, c2, suf2, by rw [hl]; rfl, ?_, hc2, hs2, ?_⟩
        · intro m hm
          rcases List.mem_cons.mp hm with rfl | hm
          · exact hc
          · exact hpre m hm
        · rw [← h, hl3]
          rfl

lemma freeGo_some (size addr : Nat) (l l2 : List RNode)
    (h : freeGo size addr l = some l2) :
    ∃ pre c suf, l = pre ++ c :: suf ∧ (∀ m ∈ pre, m.start ≠ addr) ∧
      c.start = addr ∧ c.size = size ∧ l2 = freeShape pre c suf := by
  cases l with
  | nil => cases h
  | cons c suf =>
    by_cases hc : c.start = addr
    · simp only [freeGo, if_pos hc] at h
      by_cases hs : c.size = size
      · rw [if_pos hs] at h
        injection h with h
        exact ⟨[], c, suf, rfl, by simp, hc, hs, by rw [← h]; rfl⟩
      · rw [if_neg hs] at h; cases h
    · simp only [freeGo, if_neg hc] at h
      obtain ⟨pre, c2, suf2, hl, hpre, hc2, hs2, hl2⟩ :=
        freeScan_some size addr suf c l2 h
      refine ⟨c :: pre, c2, suf2, by rw [hl]; rfl, ?_, hc2, hs2, hl2⟩
      intro m hm
      rcases List.mem_cons.mp hm with rfl | hm
      · exact hc
      · exact hpre m hm

lemma firstMatchUsed_decomp (addr : Nat) (pre : List RNode) (c : RNode)
    (suf : List RNode) (hpre : ∀ m ∈ pre, m.start ≠ addr) (hc : c.start = addr) :
    firstMatchUsed addr (pre ++ c :: suf) = c.used := by
  induction pre with
  | nil => simp [firstMatchUsed, hc]
  | cons p rest ih =>
    have hp : p.start ≠ addr := hpre p (List.mem_cons_self p rest)
    simp only [List.cons_append, firstMatchUsed, if_neg hp]
    exact ih (fun m hm => hpre m (List.mem_cons_of_mem p hm))

lemma Reach_SInv {base cap : Nat} {st : RMState} (h : Reach base cap st) :
    SInv base cap st := by
  induction h with
  | init =>
    refine ⟨⟨rfl, trivial⟩, by simp [initRM], trivial, ?_⟩
    show (0 : Nat) < W32
    decide
  | @alloc st st2 size a hr hsz hs ih =>
    obtain ⟨hgo, hmu⟩ := allocSpace_some _ _ _ _ hs
    obtain ⟨hc2, ht2, hn2, _⟩ := allocGo_inv size base _ _ _ hgo ih.1 ih.2.2.1
    refine ⟨hc2, by rw [ht2]; exact ih.2.1, hn2, ?_⟩
    rw [hmu]
    exact Nat.mod_lt _ (by decide)
  | @allocAt st st2 size addr a hr hsz hadr hs ih =>
    obtain ⟨hgo, hmu⟩ := allocSpaceAt_some _ _ _ _ _ hs
    obtain ⟨hc2, ht2, hn2, _⟩ := allocAtGo_inv size addr base _ _ _ hgo ih.1 ih.2.2.1
    refine ⟨hc2, by rw [ht2]; exact ih.2.1, hn2, ?_⟩
    rw [hmu]
    exact Nat.mod_lt _ (by decide)
  | @free st st2 size addr hr hsz hadr hs ih =>
    obtain ⟨hgo, hmu⟩ := freeSpace_some _ _ _ _ hs
    obtain ⟨pre, c, suf, hdec, hpre, hcs, hcsz, hl2⟩ := freeGo_some _ _ _ _ hgo
    refine ⟨?_, ?_, ?_, ?_⟩
    · rw [hl2]
      exact freeShape_chain base pre c suf (hdec ▸ ih.1)
    · rw [hl2, freeShape_total, ← hdec]
      exact ih.2.1
    · rw [hl2]
      exact freeShape_ntf pre c suf (hdec ▸ ih.2.2.1)
    · rw [hmu]
      exact Nat.mod_lt _ (by decide)

lemma ReachV_Reach {base cap : Nat} {st : RMState} (h : ReachV base cap st) :
    Reach base cap st := by
  induction h with
  | init => exact Reach.init
  | alloc hr hsz hs ih => exact Reach.alloc ih hsz hs
  | allocAt hr hsz hadr hs ih => exact Reach.allocAt ih hsz hadr hs
  | free hr hsz hadr hfmu hs ih => exact Reach.free ih hsz hadr hs

lemma ReachV_FInv {base cap : Nat} {st : RMState} (hcap : cap < W32)
    (h : ReachV base cap st) : st.mUsed = usedSum st.nodes := by
  induction h with
  | init => simp [initRM]
  | @alloc st st2 size a hr hsz hs ih =>
    obtain ⟨hc, ht, hn, _⟩ := Reach_SInv (ReachV_Reach hr)
    obtain ⟨hgo, hmu⟩ := allocSpace_some _ _ _ _ hs
    obtain ⟨hc2, ht2, hn2, hu2⟩ := allocGo_inv size base _ _ _ hgo hc hn
    have hle2 := usedSum_le_totalSum st2.nodes
    rw [hmu, hu2, ← ih]
    unfold add32
    apply Nat.mod_eq_of_lt
    omega
  | @allocAt st st2 size addr a hr hsz hadr hs ih =>
    obtain ⟨hc, ht, hn, _⟩ := Reach_SInv (ReachV_Reach hr)
    obtain ⟨hgo, hmu⟩ := allocSpaceAt_some _ _ _ _ _ hs
    obtain ⟨hc2, ht2, hn2, hu2⟩ := allocAtGo_inv size addr base _ _ _ hgo hc hn
    have hle2 := usedSum_le_totalSum st2.nodes
    rw [hmu, hu2, ← ih]
    unfold add32
    apply Nat.mod_eq_of_lt
    omega
  | @free st st2 size addr hr hsz hadr hfmu hs ih =>
    obtain ⟨hc, ht, hn, _⟩ := Reach_SInv (ReachV_Reach hr)
    obtain ⟨hgo, hmu⟩ := freeSpace_some _ _ _ _ hs
    obtain ⟨pre, c, suf, hdec, hpre, hcs, hcsz, hl2⟩ := freeGo_some _ _ _ _ hgo
    have hcu : c.used = true := by
      rw [hdec, firstMatchUsed_decomp addr pre c suf hpre hcs] at hfmu
      exact hfmu
    have hus : usedSum st2.nodes + c.size = usedSum st.nodes := by
      rw [hl2, freeShape_used pre c suf hcu, ← hdec]
    have h1 : usedSum st.nodes ≤ cap := by
      rw [← ht]
      exact usedSum_le_totalSum _
    rw [hmu, ih]
    unfold sub32
    have hszlt : size % W32 = size := Nat.mod_eq_of_lt (by omega)
    rw [hszlt,
      show usedSum st.nodes + (W32 - size) = usedSum st2.nodes + W32 by omega,
      Nat.add_mod_right]
    exact Nat.mod_eq_of_lt (by omega)

lemma allocGo_min (size base : Nat) (l : List RNode) (a : Nat) (l2 : List RNode)
    (h : allocGo size l = some (a, l2)) (hc : chain base l) :
    fitsFree l a size ∧ ∀ b, fitsFree l b size → a ≤ b := by
  obtain ⟨pre, f, suf, rfl, hpre, hf, hsz, rfl, -⟩ := allocGo_some size l a l2 h
  constructor
  · exact ⟨f, by simp, hf, Nat.le_refl _, by omega⟩
  · rintro b ⟨n, hn, hnf, hnb, hbs⟩
    rcases List.mem_append.mp hn with hn | hn
    · rcases hpre n hn with h1 | h1
      · rw [hnf] at h1; cases h1
      · omega
    · rcases List.mem_cons.mp hn with rfl | hn
      · omega
      · have h2 := (chain_append base pre (f :: suf)).mp hc
        have hfs : f.start = base + totalSum pre := h2.2.1
        have h3 := chain_bounds (f.start + f.size) suf h2.2.2 n hn
        omega

lemma sub32_add32 (m s : Nat) (hm : m < W32) : sub32 (add32 m s) s = m := by
  unfold add32 sub32 W32 at *
  omega

lemma removeExact_none (addr len : Nat) (l : List VMRegion)
    (h : ∀ r ∈ l, ¬(r.start = addr ∧ r.size = len)) :
    removeExact addr len l = none := by
  induction l with
  | nil => rfl
  | cons r rest ih =>
    simp only [removeExact, if_neg (h r (List.mem_cons_self r rest))]
    rw [ih (fun m hm => h m (List.mem_cons_of_mem r hm))]
    rfl

lemma removeExact_first (addr len : Nat) (pre : List VMRegion) (r : VMRegion)
    (suf : List VMRegion) (hpre : ∀ m ∈ pre, ¬(m.start = addr ∧ m.size = len))
    (hr : r.start = addr) (hs : r.size = len) :
    removeExact addr len (pre ++ r :: suf) = some (r, pre ++ suf) := by
  induction pre with
  | nil =>
    simp only [List.nil_append, removeExact, if_pos (And.intro hr hs)]
  | cons p rest ih =>
    simp only [List.cons_append, removeExact,
      if_neg (hpre p (List.mem_cons_self p rest))]
    rw [show removeExact addr len (rest.append (r :: suf)) = some (r, rest ++ suf)
      from ih (fun m hm => hpre m (List.mem_cons_of_mem p hm))]
    rfl

lemma removeExact_some (addr len : Nat) : ∀ (l : List VMRegion) (r : VMRegion)
    (rest : List VMRegion), removeExact addr len l = some (r, rest) →
    r ∈ l ∧ r.start = addr ∧ r.size = len
  | [], r, rest, h => by cases h
  | p :: l2, r, rest, h => by
    by_cases hp : p.start = addr ∧ p.size = len
    · simp only [removeExact, if_pos hp, Option.some.injEq, Prod.mk.injEq] at h
      obtain ⟨rfl, -⟩ := h
      exact ⟨List.mem_cons_self p l2, hp⟩
    · simp only [removeExact, if_neg hp] at h
      cases h2 : removeExact addr len l2 with
      | none => rw [h2] at h; cases h
      | some q =>
        rw [h2] at h
        simp only [Option.map_some', Option.some.injEq, Prod.mk.injEq] at h
        obtain ⟨rfl, -⟩ := h
        have := removeExact_some addr len l2 q.1 q.2 (by rw [h2])
        exact ⟨List.mem_cons_of_mem p this.1, this.2⟩

lemma removeByObj_some (obj : VMObj) : ∀ (l : List VMRegion) (r : VMRegion)
    (rest : List VMRegion), removeByObj obj l = some (r, rest) →
    r ∈ l ∧ r.obj = obj
  | [], r, rest, h => by cases h
  | p :: l2, r, rest, h => by
    by_cases hp : p.obj = obj
    · simp only [removeByObj, if_pos hp, Option.some.injEq, Prod.mk.injEq] at h
      obtain ⟨rfl, -⟩ := h
      exact ⟨List.mem_cons_self p l2, hp⟩
    · simp only [removeByObj, if_neg hp] at h
      cases h2 : removeByObj obj l2 with
      | none => rw [h2] at h; cases h
      | some q =>
        rw [h2] at h
        simp only [Option.map_some', Option.some.injEq, Prod.mk.injEq] at h
        obtain ⟨rfl, -⟩ := h
        have := removeByObj_some obj l2 q.1 q.2 (by rw [h2])
        exact ⟨List.mem_cons_of_mem p this.1, this.2⟩

/-- C5: `VMSpace::alloc_space` is a first-fit scan from the head of the node
list.  On a reachable (hence sorted, contiguous) map and a page-aligned
request: the call returns `ENOMEM` exactly when every node is used or too
small; on success it acts on the first free node that fits — marking it used
wholesale when its size equals the request, or splitting off a used head
piece of exactly the requested size with the free remainder kept in place —
returns that node's start address, which is the lowest free address that
fits the request, and adds the request to `m_used`. -/
theorem alloc_space_first_fit (base cap size : Nat) (st : RMState)
    (hr : Reach base cap st) (hal : size % PAGE = 0) :
    (allocSpace size st = none ↔ ∀ n ∈ st.nodes, n.used = true ∨ n.size < size) ∧
    (∀ a st2, allocSpace size st = some (a, st2) →
      (∃ pre f suf, st.nodes = pre ++ f :: suf ∧
        (∀ m ∈ pre, m.used = true ∨ m.size < size) ∧
        f.used = false ∧ size ≤ f.size ∧ a = f.start ∧
        st2.nodes = pre ++ ((if f.size = size then [⟨f.start, f.size, true⟩]
          else [⟨f.start, size, true⟩,
                ⟨f.start + size, f.size - size, false⟩]) ++ suf) ∧
        st2.mUsed = add32 st.mUsed size) ∧
      fitsFree st.nodes a size ∧ (∀ b, fitsFree st.nodes b size → a ≤ b)) := by
  have hsinv := Reach_SInv hr
  constructor
  · constructor
    · intro h
      apply (allocGo_none_iff size st.nodes).mp
      unfold allocSpace at h
      cases h2 : allocGo size st.nodes with
      | none => rfl
      | some p => rw [h2] at h; cases h
    · intro h
      unfold allocSpace
      rw [(allocGo_none_iff size st.nodes).mpr h]
      rfl
  · intro a st2 hs
    obtain ⟨hgo, hmu⟩ := allocSpace_some _ _ _ _ hs
    refine ⟨?_, allocGo_min size base st.nodes a st2.nodes hgo hsinv.1⟩
    obtain ⟨pre, f, suf, h1, h2, h3, h4, h5, h6⟩ := allocGo_some _ _ _ _ hgo
    exact ⟨pre, f, suf, h1, h2, h3, h4, h5, h6, hmu⟩

/-- Witness for C5 at a concrete input: the initial map of a space based at
`0x1000` with capacity `0xf000` is reachable, `0x1000` is page-aligned, and
the first-fit description holds there. -/
theorem alloc_space_first_fit_witness :
    Reach 4096 61440 (initRM 4096 61440) ∧ 4096 % PAGE = 0 ∧
    (allocSpace 4096 (initRM 4096 61440) = none ↔
      ∀ n ∈ (initRM 4096 61440).nodes, n.used = true ∨ n.size < 4096) :=
  ⟨Reach.init, by decide,
    (alloc_space_first_fit 4096 61440 4096 (initRM 4096 61440) Reach.init
      (by decide)).1⟩

/-- C2 (amended): for every RangeMap state reachable by sequences in which
every `free_space` call targets a node currently marked used, the node list
is contiguous from the base (`chain`), sorted ascending by start,
non-overlapping, covers exactly the initial capacity, has no two adjacent
free nodes, and `m_used` equals the sum of the sizes of the used nodes.
(The `cap < 2^32` hypothesis records that the capacity is a `size_t`
value.) -/
theorem rangemap_invariants (base cap : Nat) (st : RMState) (hcap : cap < W32)
    (h : ReachV base cap st) :
    chain base st.nodes ∧
    st.nodes.Pairwise (fun m n => m.start ≤ n.start) ∧
    st.nodes.Pairwise (fun m n => m.start + m.size ≤ n.start) ∧
    totalSum st.nodes = cap ∧ noTwoFree st.nodes ∧
    st.mUsed = usedSum st.nodes := by
  obtain ⟨hc, ht, hn, -⟩ := Reach_SInv (ReachV_Reach h)
  have hdisj := chain_pairwise base st.nodes hc
  refine ⟨hc, ?_, hdisj, ht, hn, ReachV_FInv hcap h⟩
  exact hdisj.imp (fun hmn => by omega)

/-- Witness for C2 at a concrete input: the initial single-free-node state. -/
theorem rangemap_invariants_witness :
    (4096 : Nat) < W32 ∧ ReachV 0 4096 (initRM 0 4096) ∧
    (initRM 0 4096).mUsed = usedSum (initRM 0 4096).nodes :=
  ⟨by decide, ReachV.init,
    (rangemap_invariants 0 4096 (initRM 0 4096) (by decide) ReachV.init).2.2.2.2.2⟩

/-- Counterexample to C2 as stated: `free_space` never checks the `used`
flag, so freeing the (still free) initial node succeeds and wraps the
unsigned `m_used` counter to `2^32 - 0x1000`; the resulting state is
reachable by one `free(0, 0x1000)` call from the initial state of a
`[0, 0x1000)` space, yet its `m_used` differs from the used-node sum (0). -/
theorem double_free_breaks_used_counter :
    Reach 0 4096 ⟨[⟨0, 4096, false⟩], 4294963200⟩ ∧
    ¬ (⟨[⟨0, 4096, false⟩], 4294963200⟩ : RMState).mUsed =
      usedSum (⟨[⟨0, 4096, false⟩], 4294963200⟩ : RMState).nodes :=
  ⟨@Reach.free 0 4096 (initRM 0 4096) ⟨[⟨0, 4096, false⟩], 4294963200⟩ 4096 0
    Reach.init (by decide) (by decide) (by decide), by decide⟩

/-- C1: the exact-size branch of `VMSpace::alloc_space_at` never compares the
node's start with the requested address.  From the (reachable, initial) map
of a space covering `[0x1000, 0x4000)`, `alloc_space_at(0x3000, 0x2000)`
succeeds, marks the whole node `[0x1000, 0x4000)` used, and returns `0x1000`
— not the requested `0x2000` (at which the request does not even fit, so the
correct result per the spec would be `ENOMEM`). -/
theorem alloc_space_at_moves_exact_fit :
    Reach 4096 12288 (initRM 4096 12288) ∧
    allocSpaceAt 12288 8192 (initRM 4096 12288) =
      some (4096, ⟨[⟨4096, 12288, true⟩], 12288⟩) ∧
    (4096 : Nat) ≠ 8192 :=
  ⟨Reach.init, by decide, by decide⟩

/-- Counterexample to C6 as stated: after the (successful!) misplacing
`alloc_space_at(0x3000, 0x2000)` on the initial `[0x1000, 0x4000)` map, the
follow-up `free_space(0x3000, 0x2000)` finds no node starting at `0x2000`
and dies on `ASSERT(false)` — the round trip does not restore the map (there
is no resulting state at all). -/
theorem alloc_at_free_roundtrip_fails :
    allocSpaceAt 12288 8192 (initRM 4096 12288) =
      some (4096, ⟨[⟨4096, 12288, true⟩], 12288⟩) ∧
    freeSpace 12288 8192 ⟨[⟨4096, 12288, true⟩], 12288⟩ = none :=
  ⟨by decide, by decide⟩

/-- C3 (counterexample part): `VMSpace::map_object` calls
`m_page_directory.map(*region)` as a bare statement.  With a page-table map
oracle that always fails, mapping a 1-page object into a fresh 2-page space
still returns the region successfully, and the allocated range stays used in
the RangeMap — nothing is rolled back and no `ENOMEM` is returned. -/
theorem map_object_ignores_page_table_failure :
    map_object (fun _ => false) ⟨none, 4096⟩ ⟨true, true, false, false⟩
        (initRM 0 8192) =
      some (⟨⟨none, 4096⟩, 0, 4096, ⟨true, true, false, false⟩⟩,
        ⟨[⟨0, 4096, true⟩, ⟨4096, 4096, false⟩], 4096⟩) ∧
    (⟨[⟨0, 4096, true⟩, ⟨4096, 4096, false⟩], 4096⟩ : RMState) ≠ initRM 0 8192 :=
  ⟨by decide, by decide⟩

/-- C3 (amended): `map_object` (either overload) fails exactly when the
range allocation fails — the page-table map step cannot cause a failure
because its result is discarded — and on that failure the RangeMap state is
untouched (the allocation's `ENOMEM` path mutates nothing, which is why the
embedding can return the state only on success). -/
theorem map_object_failure_is_alloc_failure (pm : VMRegion → Bool)
    (obj : VMObj) (prot : VMProt) (addr : Nat) (st : RMState) :
    (map_object pm obj prot st = none ↔ allocSpace obj.size st = none) ∧
    (map_object_at pm obj addr prot st = none ↔
      allocSpaceAt obj.size addr st = none) := by
  constructor
  · unfold map_object
    cases h2 : allocSpace obj.size st with
    | none => simp
    | some p => simp
  · unfold map_object_at
    cases h2 : allocSpaceAt obj.size addr st with
    | none => simp
    | some p => simp

lemma mergeNext_keep (c : RNode) (suf : List RNode)
    (hs : ∀ s, suf.head? = some s → s.used = true) : mergeNext c suf = c :: suf := by
  cases suf with
  | nil => rfl
  | cons s r => simp only [mergeNext, if_pos (hs s rfl)]

lemma mergeNext_merge (c s : RNode) (r : List RNode) (hs : s.used = false) :
    mergeNext c (s :: r) = ⟨c.start, c.size + s.size, false⟩ :: r := by
  have hns : ¬ s.used = true := by rw [hs]; exact Bool.false_ne_true
  simp only [mergeNext, if_neg hns]

lemma freeShape_prev_used : ∀ (pre : List RNode) (c : RNode) (suf : List RNode),
    (∀ p, lastOpt pre = some p → p.used = true) →
    freeShape pre c suf = pre ++ mergeNext ⟨c.start, c.size, false⟩ suf
  | [], c, suf, hp => rfl
  | [p], c, suf, hp => by
    simp only [freeShape, if_pos (hp p rfl)]
    rfl
  | x :: y :: rest, c, suf, hp => by
    simp only [freeShape]
    rw [freeShape_prev_used (y :: rest) c suf (fun p hpl => hp p hpl)]
    rfl

lemma freeShape_last_free : ∀ (pre2 : List RNode) (p c : RNode) (suf : List RNode),
    p.used = false →
    freeShape (pre2 ++ [p]) c suf =
      pre2 ++ mergeNext ⟨c.start - p.size, p.size + c.size, false⟩ suf
  | [], p, c, suf, hp => by
    have hnp : ¬ p.used = true := by rw [hp]; exact Bool.false_ne_true
    simp only [List.nil_append, freeShape, if_neg hnp]
  | [x], p, c, suf, hp => by
    have hnp : ¬ p.used = true := by rw [hp]; exact Bool.false_ne_true
    show freeShape (x :: [p]) c suf = _
    simp only [freeShape, if_neg hnp]
    rfl
  | x :: x2 :: rest, p, c, suf, hp => by
    show freeShape (x :: (x2 :: (rest ++ [p]))) c suf = _
    cases hrp : rest ++ [p] with
    | nil => cases rest <;> cases hrp
    | cons z zs =>
      simp only [freeShape]
      rw [← hrp, freeShape_last_free rest p c suf hp]
      rfl

/-- C6 (amended): on a reachable RangeMap state all of whose nodes have
positive size (as holds whenever every operation in the history used a
positive size), if `alloc_space_at(size, addr)` succeeds and returns exactly
`addr`, then `free_space(size, addr)` restores precisely the state that held
before the allocation. -/
theorem alloc_at_free_roundtrip (base cap size addr : Nat) (st st2 : RMState)
    (hr : Reach base cap st) (hpos : ∀ n ∈ st.nodes, 0 < n.size)
    (hsz : size % PAGE = 0) (hadr : addr % PAGE = 0)
    (h : allocSpaceAt size addr st = some (addr, st2)) :
    freeSpace size addr st2 = some st := by
  obtain ⟨hchain, htot, hntf, hmlt⟩ := Reach_SInv hr
  obtain ⟨hgo, hmu⟩ := allocSpaceAt_some _ _ _ _ _ h
  obtain ⟨pre, n, suf, hdec, hpre, hcont, hu, hbr⟩ := allocAtGo_some _ _ _ _ _ hgo
  obtain ⟨hb1, hb2⟩ := hcont
  have hntf2 : noTwoFree (pre ++ n :: suf) := hdec ▸ hntf
  have hprene : ∀ m ∈ pre, m.start ≠ addr := by
    intro m hm heq
    have hmpos : 0 < m.size := hpos m (by rw [hdec]; exact List.mem_append_left _ hm)
    exact hpre m hm ⟨Nat.le_of_eq heq, by omega⟩
  have hbound := (noTwoFree_append pre (n :: suf)).mp hntf2
  have hlastu : ∀ p, lastOpt pre = some p → p.used = true := by
    intro p hp
    rcases hbound.2.2 p n hp rfl with hth | hth
    · exact hth
    · rw [hu] at hth; cases hth
  have hsufu : ∀ s, suf.head? = some s → s.used = true := by
    intro s hsh
    cases suf with
    | nil => cases hsh
    | cons s2 r =>
      cases hsh
      rcases hbound.2.1.1 with hth | hth
      · rw [hu] at hth; cases hth
      · exact hth
  have hmrest : sub32 st2.mUsed size = st.mUsed := by
    rw [hmu]; exact sub32_add32 st.mUsed size hmlt
  have hneta : (⟨n.start, n.size, false⟩ : RNode) = n := by rw [← hu]
  rcases hbr with ⟨he, ha, hl2⟩ | ⟨he, hle, ha, hl2⟩
  · -- exact-fit branch: the hypothesis that the call returned `addr` forces
    -- the node to start exactly at `addr`.
    have han : n.start = addr := ha.symm
    have hfg : freeGo size addr st2.nodes =
        some (freeShape pre ⟨n.start, n.size, true⟩ suf) := by
      rw [hl2]
      exact freeGo_of_first size addr pre ⟨n.start, n.size, true⟩ suf hprene han he
    have hfs : freeShape pre ⟨n.start, n.size, true⟩ suf = pre ++ n :: suf := by
      rw [freeShape_prev_used pre _ suf hlastu]
      show pre ++ mergeNext ⟨n.start, n.size, false⟩ suf = pre ++ n :: suf
      rw [mergeNext_keep ⟨n.start, n.size, false⟩ suf hsufu, hneta]
    unfold freeSpace
    rw [hfg]
    simp only [Option.map_some']
    rw [hfs, hmrest, ← hdec]
  · -- split branch: the middle piece starts exactly at `addr`.
    by_cases h1 : n.start < addr
    · have hprene2 : ∀ m ∈ pre ++ [⟨n.start, addr - n.start, false⟩],
          m.start ≠ addr := by
        intro m hm
        rcases List.mem_append.mp hm with hm | hm
        · exact hprene m hm
        · rw [List.mem_singleton.mp hm]
          show n.start ≠ addr
          omega
      by_cases h2 : addr + size < n.start + n.size
      · have hl2' : st2.nodes =
            (pre ++ [⟨n.start, addr - n.start, false⟩]) ++ ⟨addr, size, true⟩ ::
              ⟨addr + size, n.start + n.size - (addr + size), false⟩ :: suf := by
          rw [hl2, if_pos h1, if_pos h2]
          simp
        have hfg : freeGo size addr st2.nodes =
            some (freeShape (pre ++ [⟨n.start, addr - n.start, false⟩])
              ⟨addr, size, true⟩
              (⟨addr + size, n.start + n.size - (addr + size), false⟩ :: suf)) := by
          rw [hl2']
          exact freeGo_of_first size addr _ _ _ hprene2 rfl rfl
        have hfs : freeShape (pre ++ [⟨n.start, addr - n.start, false⟩])
            ⟨addr, size, true⟩
            (⟨addr + size, n.start + n.size - (addr + size), false⟩ :: suf) =
            pre ++ n :: suf := by
          rw [freeShape_last_free pre ⟨n.start, addr - n.start, false⟩
            ⟨addr, size, true⟩ _ rfl]
          show pre ++ mergeNext ⟨addr - (addr - n.start), addr - n.start + size, false⟩
            (⟨addr + size, n.start + n.size - (addr + size), false⟩ :: suf) =
            pre ++ n :: suf
          rw [mergeNext_merge ⟨addr - (addr - n.start), addr - n.start + size, false⟩
            ⟨addr + size, n.start + n.size - (addr + size), false⟩ suf rfl]
          show pre ++ (⟨addr - (addr - n.start),
            addr - n.start + size + (n.start + n.size - (addr + size)), false⟩ :
              RNode) :: suf = pre ++ n :: suf
          rw [show addr - (addr - n.start) = n.start from by omega,
            show addr - n.start + size + (n.start + n.size - (addr + size)) = n.size
              from by omega, hneta]
        unfold freeSpace
        rw [hfg]
        simp only [Option.map_some']
        rw [hfs, hmrest, ← hdec]
      · have hl2' : st2.nodes =
            (pre ++ [⟨n.start, addr - n.start, false⟩]) ++ ⟨addr, size, true⟩ ::
              suf := by
          rw [hl2, if_pos h1, if_neg h2]
          simp
        have hfg : freeGo size addr st2.nodes =
            some (freeShape (pre ++ [⟨n.start, addr - n.start, false⟩])
              ⟨addr, size, true⟩ suf) := by
          rw [hl2']
          exact freeGo_of_first size addr _ _ _ hprene2 rfl rfl
        have hfs : freeShape (pre ++ [⟨n.start, addr - n.start, false⟩])
            ⟨addr, size, true⟩ suf = pre ++ n :: suf := by
          rw [freeShape_last_free pre ⟨n.start, addr - n.start, false⟩
            ⟨addr, size, true⟩ _ rfl]
          show pre ++ mergeNext ⟨addr - (addr - n.start), addr - n.start + size, false⟩
            suf = pre ++ n :: suf
          rw [mergeNext_keep ⟨addr - (addr - n.start), addr - n.start + size, false⟩
            suf hsufu]
          rw [show addr - (addr - n.start) = n.start from by omega,
            show addr - n.start + size = n.size from by omega, hneta]
        unfold freeSpace
        rw [hfg]
        simp only [Option.map_some']
        rw [hfs, hmrest, ← hdec]
    · have han : n.start = addr := by omega
      by_cases h2 : addr + size < n.start + n.size
      · have hl2' : st2.nodes = pre ++ ⟨addr, size, true⟩ ::
            ⟨addr + size, n.start + n.size - (addr + size), false⟩ :: suf := by
          rw [hl2, if_neg h1, if_pos h2]
          simp
        have hfg : freeGo size addr st2.nodes =
            some (freeShape pre ⟨addr, size, true⟩
              (⟨addr + size, n.start + n.size - (addr + size), false⟩ :: suf)) := by
          rw [hl2']
          exact freeGo_of_first size addr _ _ _ hprene rfl rfl
        have hfs : freeShape pre ⟨addr, size, true⟩
            (⟨addr + size, n.start + n.size - (addr + size), false⟩ :: suf) =
            pre ++ n :: suf := by
          rw [freeShape_prev_used pre _ _ hlastu]
          show pre ++ mergeNext ⟨addr, size, false⟩
            (⟨addr + size, n.start + n.size - (addr + size), false⟩ :: suf) =
            pre ++ n :: suf
          rw [mergeNext_merge ⟨addr, size, false⟩
            ⟨addr + size, n.start + n.size - (addr + size), false⟩ suf rfl]
          show pre ++ (⟨addr, size + (n.start + n.size - (addr + size)), false⟩ :
            RNode) :: suf = pre ++ n :: suf
          rw [show size + (n.start + n.size - (addr + size)) = n.size from by omega]
          rw [show addr = n.start from han.symm, hneta]
        unfold freeSpace
        rw [hfg]
        simp only [Option.map_some']
        rw [hfs, hmrest, ← hdec]
      · exact absurd (by omega : n.size = size) he

/-- Witness for C6 at a concrete input: the spec's fixed-allocation
scenario — `alloc_at(0x4000, 0x1000)` on the fresh `[0, 0x10000)` map splits
the free node three ways; freeing `[0x4000, 0x5000)` coalesces everything
back into the initial single free node. -/
theorem alloc_at_free_roundtrip_witness :
    Reach 0 65536 (initRM 0 65536) ∧ (∀ n ∈ (initRM 0 65536).nodes, 0 < n.size) ∧
    4096 % PAGE = 0 ∧ 16384 % PAGE = 0 ∧
    allocSpaceAt 4096 16384 (initRM 0 65536) =
      some (16384, ⟨[⟨0, 16384, false⟩, ⟨16384, 4096, true⟩,
        ⟨20480, 45056, false⟩], 4096⟩) ∧
    freeSpace 4096 16384 ⟨[⟨0, 16384, false⟩, ⟨16384, 4096, true⟩,
        ⟨20480, 45056, false⟩], 4096⟩ = some (initRM 0 65536) :=
  ⟨Reach.init, by decide, by decide, by decide, by decide,
    alloc_at_free_roundtrip 0 65536 4096 16384 (initRM 0 65536)
      ⟨[⟨0, 16384, false⟩, ⟨16384, 4096, true⟩, ⟨20480, 45056, false⟩], 4096⟩
      Reach.init (by decide) (by decide) (by decide) (by decide)⟩

/-- C4: on their failure paths `Process::sys_munmap` and
`Process::sys_shmdetach` execute the literal `return ENOENT;`, a positive
value (2) — not a negative errno.  Evaluated here on a process state with a
registered shared object (id 1) and no regions at all: both calls fail and
both return `+ENOENT`. -/
theorem syscall_failures_return_positive_errno :
    (sys_munmap 4096 4096 ⟨fun i => if i = 1 then some ⟨some 1, 4096⟩ else none,
        fun _ _ => none, [], 0, 0, initRM 0 65536⟩).1 = ENOENT ∧
    (sys_shmdetach 1 ⟨fun i => if i = 1 then some ⟨some 1, 4096⟩ else none,
        fun _ _ => none, [], 0, 0, initRM 0 65536⟩).1 = ENOENT ∧
    (0 : Int) < ENOENT :=
  ⟨rfl, rfl, by decide⟩

lemma removeExact_eq_none (addr len : Nat) : ∀ l : List VMRegion,
    removeExact addr len l = none → ∀ r ∈ l, ¬(r.start = addr ∧ r.size = len)
  | [], _, r, hr => by cases hr
  | p :: rest, h, r, hr => by
    by_cases hp : p.start = addr ∧ p.size = len
    · simp only [removeExact, if_pos hp] at h
      cases h
    · simp only [removeExact, if_neg hp] at h
      cases h2 : removeExact addr len rest with
      | none =>
        rcases List.mem_cons.mp hr with rfl | hr
        · exact hp
        · exact removeExact_eq_none addr len rest h2 r hr
      | some q => rw [h2] at h; cases h

/-- C7: `Process::sys_munmap(addr, length)` succeeds exactly when some
region matches `start == addr && size == length` exactly; on success it
removes the first such region from `_vm_regions` and subtracts its size from
`m_used_pmem` (32-bit wrapping subtraction, as for a `size_t`), touching no
other region — in particular it never splits one; on a miss it returns
`ENOENT` with the process state unchanged. -/
theorem sys_munmap_exact_match (st : KState) (addr len : Nat) :
    ((sys_munmap addr len st).1 = SUCCESS ↔
      ∃ r ∈ st.regions, r.start = addr ∧ r.size = len) ∧
    ((∀ r ∈ st.regions, ¬(r.start = addr ∧ r.size = len)) →
      sys_munmap addr len st = (ENOENT, st)) ∧
    (∀ pre r suf, st.regions = pre ++ r :: suf →
      (∀ m ∈ pre, ¬(m.start = addr ∧ m.size = len)) →
      r.start = addr → r.size = len →
      sys_munmap addr len st =
        (SUCCESS, {st with regions := pre ++ suf,
                           usedPmem := sub32 st.usedPmem r.size})) := by
  refine ⟨?_, ?_, ?_⟩
  · constructor
    · intro h
      unfold sys_munmap at h
      cases h2 : removeExact addr len st.regions with
      | none =>
        rw [h2] at h
        have h3 : ENOENT = SUCCESS := h
        exact absurd h3 (by decide)
      | some p =>
        obtain ⟨hmem, ha, hs⟩ := removeExact_some addr len st.regions p.1 p.2
          (by rw [h2])
        exact ⟨p.1, hmem, ha, hs⟩
    · rintro ⟨r, hmem, ha, hs⟩
      unfold sys_munmap
      cases h2 : removeExact addr len st.regions with
      | none => exact absurd ⟨ha, hs⟩ (removeExact_eq_none addr len st.regions h2 r hmem)
      | some p => rfl
  · intro h
    unfold sys_munmap
    rw [removeExact_none addr len st.regions h]
  · intro pre r suf hdec hpre ha hs
    unfold sys_munmap
    rw [hdec, removeExact_first addr len pre r suf hpre ha hs]

/-- Witness for C7: a process owning exactly the region `[0x1000, 0x4000)`;
the exact-match `munmap(0x1000, 0x3000)` succeeds. -/
theorem sys_munmap_exact_match_witness :
    (∃ r ∈ [(⟨⟨none, 12288⟩, 4096, 12288, ⟨true, true, false, false⟩⟩ : VMRegion)],
      r.start = 4096 ∧ r.size = 12288) ∧
    (sys_munmap 4096 12288 ⟨fun _ => none, fun _ _ => none,
      [⟨⟨none, 12288⟩, 4096, 12288, ⟨true, true, false, false⟩⟩], 0, 12288,
      initRM 0 65536⟩).1 = SUCCESS :=
  ⟨⟨⟨⟨none, 12288⟩, 4096, 12288, ⟨true, true, false, false⟩⟩, by simp, rfl, rfl⟩,
    ((sys_munmap_exact_match ⟨fun _ => none, fun _ _ => none,
      [⟨⟨none, 12288⟩, 4096, 12288, ⟨true, true, false, false⟩⟩], 0, 12288,
      initRM 0 65536⟩ 4096 12288).1).mpr
      ⟨⟨⟨none, 12288⟩, 4096, 12288, ⟨true, true, false, false⟩⟩, by simp, rfl, rfl⟩⟩

/-- C8: the three failure modes of `Process::sys_shmattach` — unknown id,
calling pid absent from the object's sharing table, and a sharing-table
entry without read permission — all return the same `ENOENT` with the
process state untouched, so a caller cannot tell a denied object from a
nonexistent one. -/
theorem sys_shmattach_indistinct_enoent (pid id : Int) (addr : Option Nat)
    (pm : VMRegion → Bool) (st : KState) :
    (st.registry id = none → sys_shmattach pid id addr pm st = (ENOENT, st)) ∧
    (∀ obj, st.registry id = some obj → st.tables id pid = none →
      sys_shmattach pid id addr pm st = (ENOENT, st)) ∧
    (∀ obj perms, st.registry id = some obj → st.tables id pid = some perms →
      perms.read = false → sys_shmattach pid id addr pm st = (ENOENT, st)) := by
  refine ⟨?_, ?_, ?_⟩
  · intro h
    unfold sys_shmattach
    rw [h]
  · intro obj h1 h2
    unfold sys_shmattach
    rw [h1, h2]
  · intro obj perms h1 h2 h3
    unfold sys_shmattach
    rw [h1, h2]
    simp [h3]

/-- Witness for C8: a registry holding object 1 of one page, whose table
grants pid 5 a no-read entry and lists nobody else; attaching to the unknown
id 2, attaching as the unlisted pid 7, and attaching as pid 5 without read
permission all return the identical `(ENOENT, state)`. -/
theorem sys_shmattach_indistinct_enoent_witness :
    ((⟨fun i => if i = 1 then some ⟨some 1, 4096⟩ else none,
        fun i q => if i = 1 ∧ q = 5 then some ⟨false, false, false, false⟩ else none,
        [], 0, 0, initRM 0 65536⟩ : KState).registry 2 = none) ∧
    sys_shmattach 7 2 none (fun _ => true)
      ⟨fun i => if i = 1 then some ⟨some 1, 4096⟩ else none,
        fun i q => if i = 1 ∧ q = 5 then some ⟨false, false, false, false⟩ else none,
        [], 0, 0, initRM 0 65536⟩ =
      (ENOENT, ⟨fun i => if i = 1 then some ⟨some 1, 4096⟩ else none,
        fun i q => if i = 1 ∧ q = 5 then some ⟨false, false, false, false⟩ else none,
        [], 0, 0, initRM 0 65536⟩) :=
  ⟨rfl, (sys_shmattach_indistinct_enoent 7 2 none (fun _ => true)
    ⟨fun i => if i = 1 then some ⟨some 1, 4096⟩ else none,
      fun i q => if i = 1 ∧ q = 5 then some ⟨false, false, false, false⟩ else none,
      [], 0, 0, initRM 0 65536⟩).1 rfl⟩

/-- C9: `Process::sys_shmallow` returns the literal `-EINVAL` whenever the
permission mask has `SHM_SHARE` set, has neither `SHM_READ` nor `SHM_WRITE`,
has `SHM_WRITE` without `SHM_READ`, or the pid is not a live process; when
every check passes and the object exists it returns `SUCCESS` and records
`(pid -> {read, write, execute=false, cow=false})` in exactly that object's
sharing table, overwriting any prior entry for that pid and leaving every
other entry, the registry and the region list unchanged. -/
theorem sys_shmallow_validation (live : Int → Bool) (id pid : Int)
    (perms : Nat) (st : KState) :
    ((perms &&& SHM_SHARE ≠ 0 ∨ perms &&& (SHM_READ ||| SHM_WRITE) = 0 ∨
      (perms &&& SHM_WRITE ≠ 0 ∧ perms &&& SHM_READ = 0) ∨ live pid = false) →
      sys_shmallow live id pid perms st = (-EINVAL, st)) ∧
    (∀ obj, perms &&& SHM_SHARE = 0 → perms &&& (SHM_READ ||| SHM_WRITE) ≠ 0 →
      ¬(perms &&& SHM_WRITE ≠ 0 ∧ perms &&& SHM_READ = 0) → live pid = true →
      st.registry id = some obj →
      (sys_shmallow live id pid perms st).1 = SUCCESS ∧
      (sys_shmallow live id pid perms st).2.tables id pid =
        some ⟨perms &&& SHM_READ != 0, perms &&& SHM_WRITE != 0, false, false⟩ ∧
      (∀ q, q ≠ pid → (sys_shmallow live id pid perms st).2.tables id q =
        st.tables id q) ∧
      (∀ i, i ≠ id → (sys_shmallow live id pid perms st).2.tables i =
        st.tables i) ∧
      (sys_shmallow live id pid perms st).2.registry = st.registry ∧
      (sys_shmallow live id pid perms st).2.regions = st.regions) := by
  constructor
  · intro hrej
    unfold sys_shmallow
    by_cases h1 : perms &&& SHM_SHARE ≠ 0
    · rw [if_pos h1]
    · rw [if_neg h1]
      by_cases h2 : perms &&& (SHM_READ ||| SHM_WRITE) = 0
      · rw [if_pos h2]
      · rw [if_neg h2]
        by_cases h3 : perms &&& SHM_WRITE ≠ 0 ∧ perms &&& SHM_READ = 0
        · rw [if_pos h3]
        · rw [if_neg h3]
          have h4 : live pid = false := by tauto
          rw [if_pos h4]
  · intro obj h1 h2 h3 h4 h5
    unfold sys_shmallow
    rw [if_neg (by simp [h1]), if_neg h2, if_neg h3,
      if_neg (by simp [h4]), h5]
    refine ⟨rfl, ?_, ?_, ?_, rfl, rfl⟩
    · show (if id = id ∧ pid = pid then _ else _) = _
      rw [if_pos ⟨rfl, rfl⟩]
    · intro q hq
      show (if id = id ∧ q = pid then _ else _) = _
      rw [if_neg (fun hh => hq hh.2)]
    · intro i hi
      funext q
      show (if i = id ∧ q = pid then _ else _) = _
      rw [if_neg (fun hh => hi hh.1)]

/-- Witness for C9: with object 1 registered and pid 5 alive,
`shmallow(1, 5, SHM_READ|SHM_WRITE)` succeeds and writes the read-write,
no-execute, no-cow entry for pid 5. -/
theorem sys_shmallow_validation_witness :
    ((3 : Nat) &&& SHM_SHARE = 0) ∧ ((3 : Nat) &&& (SHM_READ ||| SHM_WRITE) ≠ 0) ∧
    (¬((3 : Nat) &&& SHM_WRITE ≠ 0 ∧ (3 : Nat) &&& SHM_READ = 0)) ∧
    ((⟨fun i => if i = 1 then some ⟨some 1, 4096⟩ else none, fun _ _ => none,
        [], 0, 0, initRM 0 65536⟩ : KState).registry 1 = some ⟨some 1, 4096⟩) ∧
    (sys_shmallow (fun _ => true) 1 5 3
      ⟨fun i => if i = 1 then some ⟨some 1, 4096⟩ else none, fun _ _ => none,
        [], 0, 0, initRM 0 65536⟩).1 = SUCCESS :=
  ⟨by decide, by decide, by decide, rfl,
    ((sys_shmallow_validation (fun _ => true) 1 5 3
      ⟨fun i => if i = 1 then some ⟨some 1, 4096⟩ else none, fun _ _ => none,
        [], 0, 0, initRM 0 65536⟩).2 ⟨some 1, 4096⟩ (by decide) (by decide)
      (by decide) rfl rfl).1⟩

/-- C10: both overloads of `VMSpace::map_object` build the region with size
exactly `object->size()`; consequently, under the invariant that every
region's size equals its backing object's size, the `m_used_shmem` decrement
of `sys_shmdetach` (`object->size()`) coincides with the detached region's
size. -/
theorem map_object_region_size (pm : VMRegion → Bool) (obj : VMObj)
    (prot : VMProt) (addr : Nat) (st : RMState) (stk : KState) (id : Int) :
    (∀ r st2, map_object pm obj prot st = some (r, st2) →
      r.size = r.obj.size ∧ r.size = obj.size) ∧
    (∀ r st2, map_object_at pm obj addr prot st = some (r, st2) →
      r.size = r.obj.size ∧ r.size = obj.size) ∧
    (SizesInv stk.regions → ∀ obj2, stk.registry id = some obj2 →
      ∀ r rest, removeByObj obj2 stk.regions = some (r, rest) →
      obj2.size = r.size ∧
      sys_shmdetach id stk =
        (SUCCESS,
          {stk with regions := rest, usedShmem := sub32 stk.usedShmem r.size})) := by
  refine ⟨?_, ?_, ?_⟩
  · intro r st2 h
    unfold map_object at h
    cases h2 : allocSpace obj.size st with
    | none => rw [h2] at h; cases h
    | some p =>
      obtain ⟨va, st3⟩ := p
      rw [h2] at h
      simp only [Option.some.injEq, Prod.mk.injEq] at h
      obtain ⟨h3, -⟩ := h
      rw [← h3]
      exact ⟨rfl, rfl⟩
  · intro r st2 h
    unfold map_object_at at h
    cases h2 : allocSpaceAt obj.size addr st with
    | none => rw [h2] at h; cases h
    | some p =>
      obtain ⟨va, st3⟩ := p
      rw [h2] at h
      simp only [Option.some.injEq, Prod.mk.injEq] at h
      obtain ⟨h3, -⟩ := h
      rw [← h3]
      exact ⟨rfl, rfl⟩
  · intro hsz obj2 hro r rest hrm
    have hmem := removeByObj_some obj2 stk.regions r rest hrm
    have hobj : obj2.size = r.size := by
      rw [← hmem.2]
      exact (hsz r hmem.1).symm
    refine ⟨hobj, ?_⟩
    unfold sys_shmdetach
    simp only [hro, hrm]
    rw [hobj]

/-- Witness for C10: mapping a one-page object into a fresh space yields a
region of exactly the object's size, and detaching that object from a
process holding the matching region decrements `m_used_shmem` by the
region's size. -/
theorem map_object_region_size_witness :
    (map_object (fun _ => true) ⟨some 1, 4096⟩ ⟨true, true, false, false⟩
        (initRM 0 65536) =
      some (⟨⟨some 1, 4096⟩, 0, 4096, ⟨true, true, false, false⟩⟩,
        ⟨[⟨0, 4096, true⟩, ⟨4096, 61440, false⟩], 4096⟩)) ∧
    (⟨⟨some 1, 4096⟩, 0, 4096, ⟨true, true, false, false⟩⟩ : VMRegion).size =
      (⟨⟨some 1, 4096⟩, 0, 4096, ⟨true, true, false, false⟩⟩ : VMRegion).obj.size :=
  ⟨by decide,
    ((map_object_region_size (fun _ => true) ⟨some 1, 4096⟩
      ⟨true, true, false, false⟩ 0 (initRM 0 65536)
      ⟨fun _ => none, fun _ _ => none, [], 0, 0, initRM 0 65536⟩ 1).1
      ⟨⟨some 1, 4096⟩, 0, 4096, ⟨true, true, false, false⟩⟩
      ⟨[⟨0, 4096, true⟩, ⟨4096, 61440, false⟩], 4096⟩ (by decide)).1⟩

end DuckVM
